import Mathlib

/-!
Shallow embedding of the `solana-snapshot-etl` repository, for checking the
natural-language specification against the code.

The embedding models:
  * `src/append_vec.rs` — the memory-mapped segment reader (`AppendVec`,
    `get_slice`, `get_account`, `sanitize_len_and_size`, `new_from_file`);
  * `src/utils.rs` — `parse_append_vec_name` and `append_vec_iter`;
  * `src/unpacked.rs` — `UnpackedSnapshotExtractor::open`, `iter_streams`,
    `open_append_vec`;
  * `src/rpc.rs` and `src/bin/solana-snapshot-etl/rpc.rs` —
    `HistoricalRpc::load` (the index builder) and
    `AccountsRpcImpl::get_account_info` (request validation).

Machine integers (`usize`, `u64`) are modelled as `Nat` with explicit
wrap-around modulo `2 ^ 64` where the code can overflow.  Memory-mapped files
are modelled as `List Nat` of byte values; a reference into the map is the
corresponding `drop`/`take` sub-list.  Fallible operations return `Option` or
`Except`; a Rust panic (`unwrap` on `None`/`Err`) is modelled as the error arm
of an `Except String` with the panic message.
-/

namespace SnapshotEtl

/-- Upper bound of `usize`/`u64` arithmetic (64-bit platform): values wrap at
`2 ^ 64`; `usize::overflowing_add` overflows exactly when the mathematical sum
reaches this limit. -/
def USIZE_LIMIT : Nat := 18446744073709551616

/-- Value of `solana_accounts_db::accounts_file::ALIGN_BOUNDARY_OFFSET`, which
is `mem::size_of::<u64>()`, i.e. 8.  (The doc comments of the vendored
`append_vec.rs` speak of a "64-byte boundary", but the constant that
`u64_align!` actually uses is the 8-byte size of `u64`.) -/
def ALIGN_BOUNDARY_OFFSET : Nat := 8

/-- The `u64_align!` macro: `(addr + (ALIGN_BOUNDARY_OFFSET - 1)) &
!(ALIGN_BOUNDARY_OFFSET - 1)`.  For the power-of-two boundary 8 the masked
form equals rounding up to the next multiple of 8. -/
def u64_align (addr : Nat) : Nat :=
  (addr + (ALIGN_BOUNDARY_OFFSET - 1)) / ALIGN_BOUNDARY_OFFSET * ALIGN_BOUNDARY_OFFSET

/-- Value of `solana_accounts_db::append_vec::MAXIMUM_APPEND_VEC_FILE_SIZE`
(16 GiB). -/
def MAXIMUM_APPEND_VEC_FILE_SIZE : Nat := 16 * 1024 * 1024 * 1024

/-- Little-endian value of a list of bytes (least significant byte first).
Used to model reinterpreting a mapped byte range as a `u64` field on x86-64. -/
def leVal : List Nat → Nat
  | [] => 0
  | b :: bs => b % 256 + 256 * leVal bs

/-- Little-endian encoding of `v` on `n` bytes (used by the segment writer
model). -/
def writeLE : Nat → Nat → List Nat
  | 0, _ => []
  | n + 1, v => v % 256 :: writeLE n (v / 256)

/-- Size in bytes of `solana_accounts_db::account_storage::meta::StoredMeta`
(`write_version_obsolete: u64`, `data_len: u64`, `pubkey: Pubkey`): 48. -/
def storedMetaSize : Nat := 48

/-- Size in bytes of `solana_accounts_db::account_storage::meta::AccountMeta`
(`lamports: u64`, `rent_epoch: u64`, `owner: Pubkey`, `executable: bool`,
padded to 8-byte alignment): 56. -/
def accountMetaSize : Nat := 56

/-- Size in bytes of `solana_sdk::hash::Hash`: 32. -/
def hashSize : Nat := 32

/-- Typed view of the 48-byte `StoredMeta` region of a record. -/
structure StoredMeta where
  write_version_obsolete : Nat
  data_len : Nat
  pubkey : List Nat
  deriving DecidableEq, Repr

/-- Typed view of the 56-byte `AccountMeta` region of a record. -/
structure AccountMeta where
  lamports : Nat
  rent_epoch : Nat
  owner : List Nat
  executable : Bool
  deriving DecidableEq, Repr

/-- Reinterpret a 48-byte slice as `StoredMeta` (x86-64 layout: both `u64`
fields little-endian, then the 32-byte pubkey). -/
def decodeStoredMeta (b : List Nat) : StoredMeta :=
  { write_version_obsolete := leVal (b.take 8)
    data_len := leVal ((b.drop 8).take 8)
    pubkey := (b.drop 16).take 32 }

/-- Reinterpret a 56-byte slice as `AccountMeta`. -/
def decodeAccountMeta (b : List Nat) : AccountMeta :=
  { lamports := leVal (b.take 8)
    rent_epoch := leVal ((b.drop 8).take 8)
    owner := (b.drop 16).take 32
    executable := decide (b.getD 48 0 ≠ 0) }

/-- Model of `AppendVec` (src/append_vec.rs): the memory map is the byte list
`map`, `current_len` is the declared number of valid bytes. -/
structure AppendVec where
  map : List Nat
  current_len : Nat
  slot : Nat
  id : Nat
  deriving DecidableEq, Repr

/-- Model of `AppendVec::len` (returns `current_len`). -/
def AppendVec.len (av : AppendVec) : Nat := av.current_len

/-- Model of `AppendVec::get_slice`: `let (next, overflow) =
offset.overflowing_add(size); if overflow || next > self.len() { return None }`,
then the slice `&self.map[offset..next]` of length `size` together with
`u64_align!(next)`. -/
def AppendVec.get_slice (av : AppendVec) (offset size : Nat) :
    Option (List Nat × Nat) :=
  let next := offset + size
  if USIZE_LIMIT ≤ next ∨ next % USIZE_LIMIT > av.len then none
  else some ((av.map.drop offset).take size, u64_align next)

/-- Decoded view of one account record, model of `StoredAccountMeta`
(src/append_vec.rs): sub-region views plus `offset` and `stored_size`. -/
structure StoredAccountMeta where
  meta : StoredMeta
  account_meta : AccountMeta
  data : List Nat
  offset : Nat
  stored_size : Nat
  hash : List Nat
  deriving DecidableEq, Repr

/-- Model of `AppendVec::get_account`: reads the `StoredMeta`, `AccountMeta`
and `Hash` regions via `get_type` (= `get_slice` of the type's size plus a
reinterpreting cast), then the data payload of `meta.data_len` bytes, each via
a bounds-checked `get_slice`; on success returns the record and the aligned
offset after the payload. -/
def AppendVec.get_account (av : AppendVec) (offset : Nat) :
    Option (StoredAccountMeta × Nat) := do
  let (metaB, next) ← av.get_slice offset storedMetaSize
  let meta := decodeStoredMeta metaB
  let (accountB, next2) ← av.get_slice next accountMetaSize
  let (hashB, next3) ← av.get_slice next2 hashSize
  let (dataB, next4) ← av.get_slice next3 meta.data_len
  let stored_size := next4 - offset
  some ({ meta := meta, account_meta := decodeAccountMeta accountB,
          data := dataB, offset := offset, stored_size := stored_size,
          hash := hashB }, next4)

/-- The three structural-validation failures of
`AppendVec::sanitize_len_and_size`, carrying the offending size as the Rust
format strings do. -/
inductive SanitizeError where
  | tooSmallFileSize (file_size : Nat)
  | tooLargeFileSize (file_size : Nat)
  | currentLenLargerThanFileSize (file_size : Nat)
  deriving DecidableEq, Repr

/-- Model of `AppendVec::sanitize_len_and_size`: rejects `file_size == 0`,
`file_size > MAXIMUM_APPEND_VEC_FILE_SIZE` and `current_len > file_size`, in
that order. -/
def sanitize_len_and_size (current_len file_size : Nat) :
    Except SanitizeError Unit :=
  if file_size = 0 then .error (.tooSmallFileSize file_size)
  else if file_size > MAXIMUM_APPEND_VEC_FILE_SIZE then
    .error (.tooLargeFileSize file_size)
  else if current_len > file_size then
    .error (.currentLenLargerThanFileSize file_size)
  else .ok ()

/-- Model of `AppendVec::new_from_file`: the opened file's contents are
`data`, so the physical `file_size` is `data.length`; after
`sanitize_len_and_size` succeeds the file is mapped read-only and the
`AppendVec` value is built.  (The OS-level open/mmap I/O failures are outside
the byte-level model.) -/
def new_from_file (data : List Nat) (current_len slot id : Nat) :
    Except SanitizeError AppendVec :=
  match sanitize_len_and_size current_len data.length with
  | .error e => .error e
  | .ok () => .ok { map := data, current_len := current_len, slot := slot, id := id }

/-- Fuel-indexed unfolding of the record iterator: repeatedly call
`get_account` at the running offset, stopping at the first `None`.  Each
element is the yielded record together with the `next_offset` the iterator
advances to. -/
def iterFrom (av : AppendVec) : Nat → Nat → List (StoredAccountMeta × Nat)
  | 0, _ => []
  | fuel + 1, offset =>
    match av.get_account offset with
    | none => []
    | some (r, next) => (r, next) :: iterFrom av fuel next

/-- Model of `append_vec_iter` (src/utils.rs): iterate from offset 0 until the
first `None`.  `current_len + 1` fuel is always enough: every record occupies
at least one byte of `current_len`. -/
def append_vec_iter (av : AppendVec) : List (StoredAccountMeta × Nat) :=
  iterFrom av (av.current_len + 1) 0

/-- Abstract account record, input of the segment writer model. -/
structure AccountRecord where
  write_version : Nat
  pubkey : List Nat
  lamports : Nat
  rent_epoch : Nat
  owner : List Nat
  executable : Bool
  hash : List Nat
  data : List Nat
  deriving DecidableEq, Repr

/-- Normalize a byte list to exactly 32 bytes (pubkeys, owners, hashes). -/
def fix32 (l : List Nat) : List Nat := (l ++ List.replicate 32 0).take 32

/-- Round `n` up to the next multiple of `a` (for `a > 0`). -/
def alignTo (a n : Nat) : Nat := (n + (a - 1)) / a * a

/-- Serialized 48-byte `StoredMeta` region of a record: `write_version`,
`data_len` (the length of the inline payload), `pubkey`. -/
def storedMetaBytes (r : AccountRecord) : List Nat :=
  writeLE 8 r.write_version ++ writeLE 8 r.data.length ++ fix32 r.pubkey

/-- Serialized 56-byte `AccountMeta` region of a record. -/
def accountMetaBytes (r : AccountRecord) : List Nat :=
  writeLE 8 r.lamports ++ writeLE 8 r.rent_epoch ++ fix32 r.owner ++
    [if r.executable then 1 else 0] ++ List.replicate 7 0

/-- Modelled from the spec: the record layout of §3 — four contiguous
sub-regions (fixed metadata header, fixed account-attributes header, fixed
hash, variable data payload whose length is declared inline).  The repository
only reads segments; the writer that defines a "valid segment" lives in the
upstream ledger and is reconstructed here from the spec's words. -/
def recordBody (r : AccountRecord) : List Nat :=
  storedMetaBytes r ++ accountMetaBytes r ++ fix32 r.hash ++ r.data

/-- Modelled from the spec: one record's on-disk footprint, the record body
zero-padded so that the next record starts at the next multiple of the
alignment boundary `a` (§3 says 64; the code's `u64_align!` uses 8). -/
def recordBytesAligned (a : Nat) (r : AccountRecord) : List Nat :=
  recordBody r ++ List.replicate (alignTo a (recordBody r).length - (recordBody r).length) 0

/-- Modelled from the spec: a whole segment's valid bytes — the records
serialized back to back, each padded to the alignment boundary `a`. -/
def segmentBytes (a : Nat) (rs : List AccountRecord) : List Nat :=
  (rs.map (recordBytesAligned a)).flatten

/-- A valid segment for records `rs`: the mapped file holds exactly the
serialized records and the declared length is their total size. -/
def mkSegment (a : Nat) (rs : List AccountRecord) (slot id : Nat) : AppendVec :=
  { map := segmentBytes a rs, current_len := (segmentBytes a rs).length,
    slot := slot, id := id }

/-- Is `c` an ASCII decimal digit. -/
def isDigit (c : Char) : Bool := '0' ≤ c ∧ c ≤ '9'

/-- Numeric value of an ASCII digit. -/
def digitVal (c : Char) : Nat := c.toNat - '0'.toNat

/-- Digit-folding loop of Rust's `u64::from_str` past the optional sign:
every character must be a decimal digit and every intermediate
`acc * 10 + digit` must fit in a `u64` (`checked_mul`/`checked_add`). -/
def parseDigitsFrom (acc : Nat) : List Char → Option Nat
  | [] => some acc
  | c :: cs =>
    if isDigit c then
      if acc * 10 + digitVal c < USIZE_LIMIT then
        parseDigitsFrom (acc * 10 + digitVal c) cs
      else none
    else none

/-- Model of `u64::from_str`: rejects the empty string, allows one leading
`+` (which must be followed by at least one digit), then requires decimal
digits with no overflow. -/
def u64FromChars : List Char → Option Nat
  | [] => none
  | '+' :: rest => if rest.isEmpty then none else parseDigitsFrom 0 rest
  | c :: cs => parseDigitsFrom 0 (c :: cs)

/-- Split a character list at the first occurrence of `sep`: returns the part
before it and the entire remainder after it, or `none` when `sep` does not
occur.  Models `str::splitn(2, sep)` producing two pieces. -/
def splitFirst (sep : Char) : List Char → Option (List Char × List Char)
  | [] => none
  | c :: cs =>
    if c = sep then some ([], cs)
    else (splitFirst sep cs).map (fun p => (c :: p.1, p.2))

/-- The `match (slot, id) { (Ok(slot), Ok(version)) => Some(..), _ => None }`
of `parse_append_vec_name`. -/
def pairOpt : Option Nat → Option Nat → Option (Nat × Nat)
  | some slot, some id => some (slot, id)
  | _, _ => none

/-- Model of `parse_append_vec_name` (src/utils.rs): `name.splitn(2, '.')`
yields the part before the first dot and the entire remainder (or the whole
name and the missing-second-part `""`); both parts must parse as `u64`. -/
def parse_append_vec_name (name : List Char) : Option (Nat × Nat) :=
  match splitFirst '.' name with
  | none => pairOpt (u64FromChars name) (u64FromChars [])
  | some (before, after) => pairOpt (u64FromChars before) (u64FromChars after)

/-- Error kinds of `SnapshotError` (declared in the crate outside src/, used
by src/unpacked.rs): the distinguished open-time and per-segment failures. -/
inductive SnapshotError where
  | NoStatusCache
  | NoSnapshotManifest
  | UnexpectedAppendVec
  | IOError (e : SanitizeError)
  deriving DecidableEq, Repr

/-- Model of the registry row `SerializableAccountStorageEntry`
(src/solana.rs): segment id and declared accounts length. -/
structure SerializableAccountStorageEntry where
  id : Nat
  accounts_current_len : Nat
  deriving DecidableEq, Repr

/-- The slot → segment-descriptor registry, field 0 of `AccountsDbFields`,
as an association list. -/
def Registry : Type := List (Nat × List SerializableAccountStorageEntry)

/-- Lookup a slot's descriptor list in the registry (the `HashMap::get`). -/
def Registry.get (reg : Registry) (slot : Nat) :
    Option (List SerializableAccountStorageEntry) :=
  (List.find? (fun p => p.1 = slot) reg).map (fun p => p.2)

/-- Model of `UnpackedSnapshotExtractor::open_append_vec`: look up `(slot,
id)` in the registry (`unwrap_or(&[])` when the slot is absent), fail with
`UnexpectedAppendVec` when no entry carries `id`, otherwise open the file via
`new_from_file` with the registry's declared length. -/
def open_append_vec (reg : Registry) (slot id : Nat) (fileBytes : List Nat) :
    Except SnapshotError AppendVec :=
  let known_vecs := (reg.get slot).getD []
  match known_vecs.find? (fun entry => entry.id = id) with
  | none => .error .UnexpectedAppendVec
  | some v =>
    match new_from_file fileBytes v.accounts_current_len slot id with
    | .error e => .error (.IOError e)
    | .ok av => .ok av

/-- One directory entry of `root/accounts/`: its file name and the bytes of
the file it names. -/
structure DirEntry where
  name : List Char
  bytes : List Nat
  deriving DecidableEq, Repr

/-- Model of consuming the iterator built by
`UnpackedSnapshotExtractor::iter_streams`: for each entry the closure runs
`parse_append_vec_name(&name).unwrap()` and
`open_append_vec(..).unwrap()` — an `unwrap` of `None`/`Err` is a panic that
aborts the whole scan, modelled as the `Except.error` arm carrying the panic
message. -/
def iter_streams (reg : Registry) : List DirEntry → Except String (List AppendVec)
  | [] => .ok []
  | e :: rest =>
    match parse_append_vec_name e.name with
    | none => .error "panicked: called Option::unwrap on a None value"
    | some (slot, version) =>
      match open_append_vec reg slot version e.bytes with
      | .error _ => .error "panicked: called Result::unwrap on an Err value"
      | .ok av => (iter_streams reg rest).map (fun l => av :: l)

/-- Abstract view of the `root/snapshots/` directory as
`UnpackedSnapshotExtractor::open` observes it: whether the status-cache
marker file exists, and the directory's entry names in enumeration order. -/
structure SnapshotsDir where
  statusCacheExists : Bool
  entries : List (List Char)

/-- Model of the directory-scanning part of
`UnpackedSnapshotExtractor::open`: fail with `NoStatusCache` when the marker
file is missing; otherwise scan (only!) the first 10 entries of
`root/snapshots/` (`snapshot_files.take(10)`) for the first name parsing as a
`u64` and fail with `NoSnapshotManifest` when there is none; otherwise the
manifest is read from `entry.path().join(entry.file_name())`, i.e. the path
`snapshots/<name>/<name>`, modelled as the returned pair `(name, name)`.
(The subsequent bincode manifest deserialization is I/O outside the model.) -/
def openExtractor (dir : SnapshotsDir) :
    Except SnapshotError (List Char × List Char) :=
  if !dir.statusCacheExists then .error .NoStatusCache
  else
    match (dir.entries.take 10).find? (fun name => (u64FromChars name).isSome) with
    | none => .error .NoSnapshotManifest
    | some name => .ok (name, name)

/-- Account identity: the 32-byte public key, as read from a record's
`meta.pubkey`. -/
abbrev Pkey : Type := List Nat

/-- The account index of `HistoricalRpc`: identity → (slot, id), modelled as
an association list (the `HashMap`'s per-key behavior is all the claims
use). -/
abbrev Index : Type := List (Pkey × (Nat × Nat))

/-- Lookup of a key in the index (`HashMap::get` / `entry` vacancy test). -/
def Index.get (idx : Index) (key : Pkey) : Option (Nat × Nat) :=
  (List.find? (fun p => p.1 = key) idx).map (fun p => p.2)

/-- Occupied-entry overwrite `*entry = (slot, id)`. -/
def Index.set (idx : Index) (key : Pkey) (v : Nat × Nat) : Index :=
  idx.map (fun p => if p.1 = key then (p.1, v) else p)

/-- One index update of `HistoricalRpc::load` for a record with identity
`key` coming from the segment `(slot, id)`, together with the
unique-identities counter: `entry(key).or_insert_with(|| { unique += 1;
(slot, id) })`, then `if entry.0 < slot { *entry = (slot, id) }`. -/
def indexStep (st : Index × Nat) (slot id : Nat) (key : Pkey) : Index × Nat :=
  let (idx, unique) := st
  let (entry, idx1, unique1) :=
    match idx.get key with
    | some e => (e, idx, unique)
    | none => ((slot, id), idx ++ [(key, (slot, id))], unique + 1)
  if entry.1 < slot then (idx1.set key (slot, id), unique1) else (idx1, unique1)

/-- Model of the index-construction loop of `HistoricalRpc::load` (identical
in src/rpc.rs and src/bin/solana-snapshot-etl/rpc.rs): for each segment of
the extractor's stream — but only the first 10 (`.take(10)`) — and for each
record of `append_vec_iter` — but only the first 2 (`.take(2)`) — apply
`indexStep` with the record's `meta.pubkey`.  Returns the index and the
unique-identities count. -/
def loadIndex (vecs : List AppendVec) : Index × Nat :=
  (vecs.take 10).foldl
    (fun st av =>
      ((append_vec_iter av).take 2).foldl
        (fun st' p => indexStep st' av.slot av.id p.1.meta.pubkey) st)
    ([], 0)

/-- Owned account state, model of `solana_sdk::account::Account` as produced
by `StoredAccountMeta::clone_account`. -/
structure Account where
  lamports : Nat
  data : List Nat
  owner : List Nat
  executable : Bool
  rent_epoch : Nat
  deriving DecidableEq, Repr

/-- The `UiAccountEncoding` values a request may carry. -/
inductive UiAccountEncoding where
  | binary
  | base58
  | base64
  | jsonParsed
  | base64Zstd
  deriving DecidableEq, Repr

/-- Model of `RpcAccountInfoConfig` (the fields `get_account_info`
destructures; the ignored `commitment` field is dropped by the `..`
pattern).  `data_slice` is modelled by its offset/length payload. -/
structure RpcAccountInfoConfig where
  encoding : Option UiAccountEncoding
  data_slice : Option (Nat × Nat)
  min_context_slot : Option Nat
  deriving DecidableEq, Repr

/-- The `Default` value `config.unwrap_or_default()` falls back to: every
option absent. -/
def RpcAccountInfoConfig.default : RpcAccountInfoConfig :=
  { encoding := none, data_slice := none, min_context_slot := none }

/-- The distinguished `invalid_params` rejections of `get_account_info`,
carrying the offending parameter as the format strings do. -/
inductive RpcError where
  | expectedBase64Encoding (received : Option UiAccountEncoding)
  | dataSliceUnsupported (received : Option (Nat × Nat))
  | minContextSlotNotReached (requested highest : Nat)
  deriving DecidableEq, Repr

/-- Model of `AccountsRpcImpl::get_account_info` past pubkey verification:
`slot` is the snapshot's canonical slot (`meta.slot()`), `getAccount` is the
index-backed lookup `meta.get_account` (abstracted, so that independence of
the rejection from the index contents is expressible).  Validation happens
before `getAccount` is consulted; on success the response carries the
canonical slot and the base64-encoded account. -/
def get_account_info (slot : Nat) (getAccount : Pkey → Option Account)
    (pubkey : Pkey) (config : Option RpcAccountInfoConfig) :
    Except RpcError (Nat × Option Account) :=
  let cfg := config.getD RpcAccountInfoConfig.default
  let min_context_slot := cfg.min_context_slot.getD 0
  if cfg.encoding ≠ some .base64 then
    .error (.expectedBase64Encoding cfg.encoding)
  else if cfg.data_slice.isSome then
    .error (.dataSliceUnsupported cfg.data_slice)
  else if min_context_slot > slot then
    .error (.minContextSlotNotReached min_context_slot slot)
  else .ok (slot, getAccount pubkey)

set_option maxRecDepth 100000

/-- An all-zero account record whose 32-byte pubkey repeats `tag`. -/
def zeroRecord (tag : Nat) : AccountRecord :=
  { write_version := 0, pubkey := List.replicate 32 tag, lamports := 0,
    rent_epoch := 0, owner := List.replicate 32 0, executable := false,
    hash := List.replicate 32 0, data := [] }

/-- A valid 408-byte segment holding three records keyed 1, 2, 3 (used as the
failing input of the index-builder claim). -/
def c2Segment : AppendVec :=
  mkSegment 8 [zeroRecord 1, zeroRecord 2, zeroRecord 3] 5 7

/-- A one-record segment keyed 1 (filler for the first ten stream slots). -/
def c2FillerSegment : AppendVec := mkSegment 8 [zeroRecord 1] 5 7

/-- A one-record segment keyed 3 appearing as the eleventh stream element. -/
def c2EleventhSegment : AppendVec := mkSegment 8 [zeroRecord 3] 6 8

/-- Registry declaring exactly the segment `(5, 3)` with declared length
136. -/
def c7Registry : Registry :=
  [(5, [{ id := 3, accounts_current_len := 136 }])]

/-- Bytes of a valid 136-byte one-record segment. -/
def c7GoodBytes : List Nat := segmentBytes 8 [zeroRecord 9]

/-- A well-formed directory entry for segment `(5, 3)`. -/
def c7Good : DirEntry := { name := ['5', '.', '3'], bytes := c7GoodBytes }

/-- A directory entry whose name does not parse as `slot.id`. -/
def c7Bad : DirEntry :=
  { name := ['g', 'a', 'r', 'b', 'a', 'g', 'e'], bytes := [] }

/-- A directory entry naming a segment the manifest does not declare. -/
def c7Unexpected : DirEntry := { name := ['9', '.', '9'], bytes := c7GoodBytes }


/-- A record with a 3-byte payload (all other fields zeroed, pubkey tag 1). -/
def c5Record : AccountRecord :=
  { write_version := 0, pubkey := List.replicate 32 1, lamports := 0,
    rent_epoch := 0, owner := List.replicate 32 0, executable := false,
    hash := List.replicate 32 0, data := [1, 2, 3] }

section Theorems

/-- C4: Opening a segment file fails with a structural-validation error in
exactly the three cases — physical size 0, physical size above
`MAXIMUM_APPEND_VEC_FILE_SIZE`, declared length above physical size — with no
segment value produced, and otherwise validation succeeds and the read-only
mapping is returned. -/
theorem new_from_file_validation (d : List Nat) (L slot id : Nat) :
    ((d.length = 0 ∨ MAXIMUM_APPEND_VEC_FILE_SIZE < d.length ∨ d.length < L) →
      ∃ e, new_from_file d L slot id = .error e) ∧
    (d.length ≠ 0 → d.length ≤ MAXIMUM_APPEND_VEC_FILE_SIZE → L ≤ d.length →
      new_from_file d L slot id =
        .ok { map := d, current_len := L, slot := slot, id := id }) := by
  unfold new_from_file sanitize_len_and_size
  constructor
  · intro h
    split_ifs with h0 h1 h2
    · exact ⟨_, rfl⟩
    · exact ⟨_, rfl⟩
    · exact ⟨_, rfl⟩
    · omega
  · intro h1 h2 h3
    split_ifs with h0 hA hB
    · exact absurd h0 h1
    · omega
    · omega
    · rfl

/-- Closed instance of `new_from_file_validation`: the empty file is rejected
and a 1-byte file with declared length 1 opens. -/
theorem new_from_file_validation_witness :
    (∃ e, new_from_file ([] : List Nat) 0 3 4 = .error e) ∧
    new_from_file [7] 1 3 4 =
      .ok { map := [7], current_len := 1, slot := 3, id := 4 } :=
  ⟨(new_from_file_validation [] 0 3 4).1 (by decide),
   (new_from_file_validation [7] 1 3 4).2 (by decide) (by decide) (by decide)⟩

/-- C8: A `get_account_info` request whose (defaulted) configuration has an
encoding other than base64, or a `data_slice`, or a `min_context_slot` above
the canonical slot, is rejected, and the result does not depend on the
index-backed account lookup at all. -/
theorem get_account_info_rejects_before_lookup
    (slot : Nat) (pubkey : Pkey) (config : Option RpcAccountInfoConfig)
    (ga ga' : Pkey → Option Account)
    (h : (config.getD RpcAccountInfoConfig.default).encoding ≠ some .base64 ∨
         (config.getD RpcAccountInfoConfig.default).data_slice.isSome = true ∨
         slot < (config.getD RpcAccountInfoConfig.default).min_context_slot.getD 0) :
    (∃ e, get_account_info slot ga pubkey config = .error e) ∧
    get_account_info slot ga pubkey config =
      get_account_info slot ga' pubkey config := by
  simp only [get_account_info]
  split_ifs with h1 h2 h3
  · exact ⟨⟨_, rfl⟩, rfl⟩
  · exact ⟨⟨_, rfl⟩, rfl⟩
  · exact ⟨⟨_, rfl⟩, rfl⟩
  · rcases h with h | h | h
    · exact absurd h h1
    · simp [h] at h2
    · omega

/-- Closed instance of `get_account_info_rejects_before_lookup`: a request
with base58 encoding is rejected identically whether the lookup would find an
account or not. -/
theorem get_account_info_rejects_before_lookup_witness :
    (∃ e, get_account_info 9 (fun _ => none) [1]
        (some { encoding := some .base58, data_slice := none,
                min_context_slot := none }) = .error e) ∧
    get_account_info 9 (fun _ => none) [1]
        (some { encoding := some .base58, data_slice := none,
                min_context_slot := none }) =
      get_account_info 9
        (fun _ => some { lamports := 5, data := [], owner := [],
                         executable := false, rent_epoch := 0 }) [1]
        (some { encoding := some .base58, data_slice := none,
                min_context_slot := none }) :=
  get_account_info_rejects_before_lookup 9 [1]
    (some { encoding := some .base58, data_slice := none,
            min_context_slot := none })
    (fun _ => none)
    (fun _ => some { lamports := 5, data := [], owner := [],
                     executable := false, rent_epoch := 0 })
    (by decide)

/-- C9: A `get_account_info` request with no configuration at all, or whose
configuration leaves `encoding` unset, is rejected: the defaulted `None`
encoding is not `Some(Base64)`. -/
theorem get_account_info_rejects_absent_encoding
    (slot : Nat) (pubkey : Pkey) (ga : Pkey → Option Account)
    (dslice : Option (Nat × Nat)) (mcs : Option Nat) :
    get_account_info slot ga pubkey none =
      .error (.expectedBase64Encoding none) ∧
    get_account_info slot ga pubkey
        (some { encoding := none, data_slice := dslice,
                min_context_slot := mcs }) =
      .error (.expectedBase64Encoding none) := by
  constructor <;> rfl

/-- Appending a fresh key to the index makes it found with its value. -/
theorem Index.get_append_single (idx : Index) (key : Pkey) (v : Nat × Nat)
    (h : idx.get key = none) : (idx ++ [(key, v)]).get key = some v := by
  induction idx with
  | nil =>
    unfold Index.get
    rw [List.nil_append, List.find?_cons_of_pos]
    · rfl
    · simp
  | cons a idx ih =>
    by_cases hk : a.1 = key
    · exfalso
      unfold Index.get at h
      rw [List.find?_cons_of_pos] at h
      · simp at h
      · simp [hk]
    · unfold Index.get at h ⊢
      rw [List.find?_cons_of_neg] at h
      · rw [List.cons_append, List.find?_cons_of_neg]
        · exact ih h
        · simp [hk]
      · simp [hk]

/-- Overwriting an existing key in the index makes it found with the new
value. -/
theorem Index.get_set_self (idx : Index) (key : Pkey) (v w : Nat × Nat)
    (h : idx.get key = some w) : (idx.set key v).get key = some v := by
  induction idx with
  | nil => simp [Index.get] at h
  | cons a idx ih =>
    by_cases hk : a.1 = key
    · unfold Index.set
      rw [List.map_cons, if_pos hk]
      unfold Index.get
      rw [List.find?_cons_of_pos]
      · rfl
      · simp [hk]
    · unfold Index.get at h ⊢
      unfold Index.set
      rw [List.find?_cons_of_neg] at h
      · rw [List.map_cons, if_neg hk, List.find?_cons_of_neg]
        · exact ih h
        · simp [hk]
      · simp [hk]

/-- C3: One index-builder step for a record with identity `key` from segment
`(slot, id)`: an absent key is inserted as `(slot, id)` and counted as a new
unique identity; a present key with stored slot strictly below `slot` is
overwritten with `(slot, id)` without touching the counter; a present key
with stored slot at least `slot` (ties included, whatever the stored segment
id) leaves index and counter unchanged. -/
theorem indexStep_policy (idx : Index) (unique slot id : Nat) (key : Pkey) :
    (idx.get key = none →
      (indexStep (idx, unique) slot id key).1.get key = some (slot, id) ∧
      (indexStep (idx, unique) slot id key).2 = unique + 1) ∧
    (∀ s i, idx.get key = some (s, i) → s < slot →
      (indexStep (idx, unique) slot id key).1.get key = some (slot, id) ∧
      (indexStep (idx, unique) slot id key).2 = unique) ∧
    (∀ s i, idx.get key = some (s, i) → slot ≤ s →
      indexStep (idx, unique) slot id key = (idx, unique)) := by
  refine ⟨fun h => ?_, fun s i h hs => ?_, fun s i h hs => ?_⟩
  · have hstep : indexStep (idx, unique) slot id key =
        (idx ++ [(key, (slot, id))], unique + 1) := by
      simp only [indexStep, h]
      simp
    rw [hstep]
    exact ⟨Index.get_append_single idx key (slot, id) h, rfl⟩
  · have hstep : indexStep (idx, unique) slot id key =
        (idx.set key (slot, id), unique) := by
      simp only [indexStep, h]
      simp [hs]
    rw [hstep]
    exact ⟨Index.get_set_self idx key (slot, id) (s, i) h, rfl⟩
  · have hns : ¬ s < slot := not_lt.mpr hs
    simp only [indexStep, h]
    simp [hns]

/-- Closed instance of `indexStep_policy`: on the one-entry index
`[([1], (5, 0))]`, a fresh key is inserted and counted, a newer slot
overwrites, and an equal slot from a different segment id changes nothing. -/
theorem indexStep_policy_witness :
    ((indexStep ([([1], (5, 0))], 1) 6 2 [2]).1.get [2] = some (6, 2) ∧
      (indexStep ([([1], (5, 0))], 1) 6 2 [2]).2 = 2) ∧
    ((indexStep ([([1], (5, 0))], 1) 6 2 [1]).1.get [1] = some (6, 2) ∧
      (indexStep ([([1], (5, 0))], 1) 6 2 [1]).2 = 1) ∧
    indexStep ([([1], (5, 0))], 1) 5 2 [1] = ([([1], (5, 0))], 1) :=
  ⟨(indexStep_policy [([1], (5, 0))] 1 6 2 [2]).1 (by decide),
   (indexStep_policy [([1], (5, 0))] 1 6 2 [1]).2.1 5 0 (by decide) (by decide),
   (indexStep_policy [([1], (5, 0))] 1 5 2 [1]).2.2 5 0 (by decide) (by decide)⟩

/-- Inversion of `splitFirst`: a successful split decomposes the list at the
first occurrence of the separator. -/
theorem splitFirst_eq_some (sep : Char) :
    ∀ {l a b : List Char}, splitFirst sep l = some (a, b) →
      l = a ++ sep :: b ∧ sep ∉ a := by
  intro l
  induction l with
  | nil => intro a b h; simp [splitFirst] at h
  | cons c cs ih =>
    intro a b h
    simp only [splitFirst] at h
    by_cases hc : c = sep
    · rw [if_pos hc] at h
      injection h with h
      injection h with h1 h2
      subst h1; subst h2
      exact ⟨by rw [hc]; rfl, List.not_mem_nil sep⟩
    · rw [if_neg hc] at h
      cases hp : splitFirst sep cs with
      | none => rw [hp] at h; simp at h
      | some p =>
        rw [hp] at h
        obtain ⟨p1, p2⟩ := p
        simp only [Option.map_some'] at h
        injection h with h
        injection h with h1 h2
        subst h1; subst h2
        obtain ⟨hcs, hmem⟩ := ih hp
        subst hcs
        refine ⟨rfl, ?_⟩
        intro hin
        rcases List.mem_cons.mp hin with h | h
        · exact hc h.symm
        · exact hmem h

/-- Computation of `splitFirst` on an explicit first-separator
decomposition. -/
theorem splitFirst_append (sep : Char) :
    ∀ (a b : List Char), sep ∉ a →
      splitFirst sep (a ++ sep :: b) = some (a, b) := by
  intro a
  induction a with
  | nil => intro b _; simp [splitFirst]
  | cons c cs ih =>
    intro b hmem
    have hc : c ≠ sep := fun h => hmem (h ▸ List.mem_cons_self c cs)
    have hcs : sep ∉ cs := fun h => hmem (List.mem_cons_of_mem c h)
    simp only [List.cons_append, splitFirst, if_neg hc, List.append_eq,
      ih b hcs, Option.map_some']

/-- C10: `parse_append_vec_name` succeeds with `(slot, id)` exactly when the
name splits at its first dot into a prefix and the entire remainder, both of
which `u64::from_str` accepts; in every other case (no dot, non-numeric
part, overflow, or extra text after the second part such as another
extension) it returns `None`. -/
theorem parse_append_vec_name_iff (name : List Char) (slot id : Nat) :
    parse_append_vec_name name = some (slot, id) ↔
      ∃ a b, name = a ++ '.' :: b ∧ '.' ∉ a ∧
        u64FromChars a = some slot ∧ u64FromChars b = some id := by
  have hpair : ∀ x y : Option Nat, pairOpt x y = some (slot, id) ↔
      (x = some slot ∧ y = some id) := by
    intro x y
    cases x <;> cases y <;> simp [pairOpt]
  constructor
  · intro h
    unfold parse_append_vec_name at h
    cases hs : splitFirst '.' name with
    | none =>
      rw [hs] at h
      rw [hpair] at h
      rw [show u64FromChars ([] : List Char) = none from rfl] at h
      simp at h
    | some p =>
      obtain ⟨a, b⟩ := p
      rw [hs] at h
      rw [hpair] at h
      obtain ⟨hname, hmem⟩ := splitFirst_eq_some '.' hs
      exact ⟨a, b, hname, hmem, h.1, h.2⟩
  · rintro ⟨a, b, rfl, hna, ha, hb⟩
    unfold parse_append_vec_name
    rw [splitFirst_append '.' a b hna]
    show pairOpt (u64FromChars a) (u64FromChars b) = some (slot, id)
    rw [ha, hb]
    rfl

/-- Characterization of a successful `find?`: the list splits into a prefix
of failing elements, the found element, and a remainder. -/
theorem find?_eq_some_split {α : Type} (p : α → Bool) :
    ∀ (l : List α) (a : α), l.find? p = some a ↔
      ∃ pre post, l = pre ++ a :: post ∧ (∀ x ∈ pre, p x = false) ∧
        p a = true := by
  intro l
  induction l with
  | nil =>
    intro a
    simp only [List.find?_nil]
    constructor
    · intro h; simp at h
    · rintro ⟨pre, post, heq, -, -⟩
      exact absurd heq.symm (by simp)
  | cons c cs ih =>
    intro a
    by_cases hc : p c = true
    · rw [List.find?_cons_of_pos _ hc]
      constructor
      · intro h
        injection h with h
        subst h
        exact ⟨[], cs, rfl, by simp, hc⟩
      · rintro ⟨pre, post, heq, hpre, hpa⟩
        cases pre with
        | nil =>
          simp only [List.nil_append] at heq
          injection heq with h1 _
          rw [h1]
        | cons d ds =>
          simp only [List.cons_append] at heq
          injection heq with h1 _
          have := hpre d (List.mem_cons_self d ds)
          rw [← h1] at this
          rw [this] at hc
          exact absurd hc (by simp)
    · have hcf : p c = false := by
        cases hpc : p c
        · rfl
        · exact absurd hpc hc
      rw [List.find?_cons_of_neg _ (by simp [hcf])]
      rw [ih a]
      constructor
      · rintro ⟨pre, post, heq, hpre, hpa⟩
        refine ⟨c :: pre, post, by rw [List.cons_append, heq], ?_, hpa⟩
        intro x hx
        rcases List.mem_cons.mp hx with h | h
        · rw [h]; exact hcf
        · exact hpre x h
      · rintro ⟨pre, post, heq, hpre, hpa⟩
        cases pre with
        | nil =>
          simp only [List.nil_append] at heq
          injection heq with h1 _
          rw [h1] at hcf
          rw [hpa] at hcf
          exact absurd hcf (by simp)
        | cons d ds =>
          simp only [List.cons_append] at heq
          injection heq with h1 h2
          exact ⟨ds, post, h2, fun x hx => hpre x (List.mem_cons_of_mem d hx),
            hpa⟩

/-- C6 counterexample: with the status-cache marker present and the
integer-named manifest entry appearing as the 11th entry of
`root/snapshots/`, `open` fails with the missing-manifest error even though
an integer-named entry exists — the scan stops after
`snapshot_files.take(10)`. -/
theorem openExtractor_counterexample :
    openExtractor
        { statusCacheExists := true,
          entries := List.replicate 10 ['x'] ++ [['1', '2', '3']] } =
      .error .NoSnapshotManifest ∧
    u64FromChars ['1', '2', '3'] = some 123 := by
  constructor <;> rfl

/-- C6 amended: `open(root)` fails with the missing-status-cache error iff
the marker is absent; otherwise it fails with the missing-manifest error iff
none of the first 10 entries of `root/snapshots/` (enumeration order) has a
name parsing as a plain integer; otherwise it reads the manifest from
`snapshots/<name>/<name>` where `name` is the first such entry name among
those first 10. -/
theorem openExtractor_behavior (dir : SnapshotsDir) :
    (openExtractor dir = .error .NoStatusCache ↔
      dir.statusCacheExists = false) ∧
    (openExtractor dir = .error .NoSnapshotManifest ↔
      (dir.statusCacheExists = true ∧
        ∀ name ∈ dir.entries.take 10, u64FromChars name = none)) ∧
    (∀ manifest, openExtractor dir = .ok manifest ↔
      (dir.statusCacheExists = true ∧ ∃ pre post name,
        manifest = (name, name) ∧
        dir.entries.take 10 = pre ++ name :: post ∧
        (∀ x ∈ pre, u64FromChars x = none) ∧
        (u64FromChars name).isSome = true)) := by
  cases hstat : dir.statusCacheExists with
  | false =>
    have hopen : openExtractor dir = .error .NoStatusCache := by
      simp [openExtractor, hstat]
    refine ⟨by simp [hopen], by simp [hopen, hstat], fun manifest => ?_⟩
    simp [hopen, hstat]
  | true =>
    have hopen : openExtractor dir =
        match (dir.entries.take 10).find?
            (fun name => (u64FromChars name).isSome) with
        | none => .error .NoSnapshotManifest
        | some name => .ok (name, name) := by
      simp [openExtractor, hstat]
    cases hf : (dir.entries.take 10).find?
        (fun name => (u64FromChars name).isSome) with
    | none =>
      rw [hf] at hopen
      have hopen2 : openExtractor dir = .error .NoSnapshotManifest := hopen
      have hall : ∀ name ∈ dir.entries.take 10, u64FromChars name = none := by
        intro n hn
        have := List.find?_eq_none.mp hf n hn
        simpa [Option.not_isSome_iff_eq_none] using this
      refine ⟨by simp [hopen2], ⟨fun _ => ⟨rfl, hall⟩, fun _ => hopen2⟩,
        fun manifest => ?_⟩
      simp only [hopen2, hstat, true_and]
      constructor
      · intro h; exact absurd h (by simp)
      · rintro ⟨pre, post, name, -, heq, -, hsome⟩
        have : name ∈ dir.entries.take 10 := by
          rw [heq]; exact List.mem_append_right pre (List.mem_cons_self name post)
        rw [hall name this] at hsome
        simp at hsome
    | some name =>
      rw [hf] at hopen
      have hopen2 : openExtractor dir = .ok (name, name) := hopen
      have hmem0 := List.mem_of_find?_eq_some hf
      have hmem : name ∈ dir.entries.take 10 := hmem0
      have hsome0 := List.find?_some hf
      have hsome : (u64FromChars name).isSome = true := hsome0
      refine ⟨by simp [hopen2, hstat], ?_, fun manifest => ?_⟩
      · simp only [hopen2, hstat, true_and]
        constructor
        · intro h; exact absurd h (by simp)
        · intro hall
          rw [hall name hmem] at hsome
          simp at hsome
      · simp only [hopen, hstat, true_and]
        constructor
        · intro h
          have hman : manifest = (name, name) := by
            injection h with h'
            exact h'.symm
          obtain ⟨pre, post, heq, hpre, hpa⟩ :=
            (find?_eq_some_split _ (dir.entries.take 10) name).mp hf
          refine ⟨pre, post, name, hman, heq, ?_, hpa⟩
          intro x hx
          have := hpre x hx
          simpa [Option.not_isSome_iff_eq_none] using this
        · rintro ⟨pre, post, name', hman, heq, hpre, hpa⟩
          have : (dir.entries.take 10).find?
              (fun n => (u64FromChars n).isSome) = some name' := by
            rw [find?_eq_some_split]
            exact ⟨pre, post, heq, by
              intro x hx
              simp [hpre x hx], hpa⟩
          rw [hf] at this
          injection this with h'
          rw [hman, h']

/-- C2 failing input: the index build drops records.  The 408-byte segment
`c2Segment` yields three records keyed 1, 2, 3 when iterated from offset 0,
yet after `HistoricalRpc::load` the identity keyed 3 is absent from the index
(`.take(2)` keeps only the first two records per segment) while the identity
keyed 1 is present; likewise a stream of eleven segments loses its eleventh
segment's identity (`.take(10)` keeps only the first ten segments). -/
theorem loadIndex_take_limits :
    ((append_vec_iter c2Segment).map (fun p => p.1.meta.pubkey)) =
      [List.replicate 32 1, List.replicate 32 2, List.replicate 32 3] ∧
    (loadIndex [c2Segment]).1.get (List.replicate 32 3) = none ∧
    (loadIndex [c2Segment]).1.get (List.replicate 32 1) = some (5, 7) ∧
    (loadIndex (List.replicate 10 c2FillerSegment ++ [c2EleventhSegment])).1.get
      (List.replicate 32 3) = none := by
  refine ⟨?_, ?_, ?_, ?_⟩ <;> decide


/-- C7 failing input: consuming `iter_streams` panics (aborting the whole
scan, so the well-formed entry after the offending one is never produced)
both on a filename that fails to parse and on a segment the manifest does
not declare, while the same well-formed entry alone streams fine. -/
theorem iter_streams_aborts :
    iter_streams c7Registry [c7Bad, c7Good] =
      .error "panicked: called Option::unwrap on a None value" ∧
    iter_streams c7Registry [c7Unexpected, c7Good] =
      .error "panicked: called Result::unwrap on an Err value" ∧
    iter_streams c7Registry [c7Good] =
      .ok [{ map := c7GoodBytes, current_len := 136, slot := 5, id := 3 }] := by
  refine ⟨?_, ?_, ?_⟩ <;> rfl

/-- `get_slice` fails exactly when the requested range overflows `usize` or
runs past the declared length. -/
theorem get_slice_eq_none_iff (av : AppendVec) (o s : Nat) :
    av.get_slice o s = none ↔
      USIZE_LIMIT ≤ o + s ∨ av.current_len < o + s := by
  simp only [AppendVec.get_slice, AppendVec.len]
  split_ifs with h
  · simp only [USIZE_LIMIT] at h ⊢
    exact ⟨fun _ => by omega, fun _ => trivial⟩
  · simp only [USIZE_LIMIT] at h ⊢
    constructor
    · intro hc; exact absurd hc (by simp)
    · intro hr; exact absurd hr (by omega)

/-- `get_slice` succeeds exactly on an in-bounds, non-overflowing range, and
then returns the corresponding sub-list of the mapping with the 8-byte
aligned offset past the range. -/
theorem get_slice_eq_some_iff (av : AppendVec) (o s : Nat) (b : List Nat)
    (n : Nat) :
    av.get_slice o s = some (b, n) ↔
      o + s < USIZE_LIMIT ∧ o + s ≤ av.current_len ∧
      b = (av.map.drop o).take s ∧ n = u64_align (o + s) := by
  simp only [AppendVec.get_slice, AppendVec.len]
  split_ifs with h
  · constructor
    · intro hc; exact absurd hc (by simp)
    · rintro ⟨h1, h2, -, -⟩
      simp only [USIZE_LIMIT] at h h1 h2
      exact absurd h (by omega)
  · constructor
    · intro hc
      injection hc with hc
      injection hc with hb hn
      simp only [USIZE_LIMIT] at h ⊢
      exact ⟨by omega, by omega, hb.symm, hn.symm⟩
    · rintro ⟨h1, h2, rfl, rfl⟩
      rfl

/-- Reading the 8-byte field at offset 8 of a 48-byte view equals reading it
directly from the underlying buffer. -/
theorem inner_field_eq (l : List Nat) (o : Nat) :
    (((l.drop o).take 48).drop 8).take 8 = (l.drop (o + 8)).take 8 := by
  rw [List.drop_take, List.drop_drop, List.take_take]
  norm_num

/-- C1: `get_account` returns `None` whenever the fixed metadata header would
overflow or run past the declared length `L` — in particular at the boundary
offset `o = L` — and on success every materialized byte range (metadata
header, attributes header, hash, and the payload whose length is the inline
`data_len` field) lies entirely within the first `L` bytes of the mapping.
The hypothesis `current_len ≤ map.length` is the invariant `new_from_file`
establishes (`sanitize_len_and_size` requires `current_len ≤ file_size`). -/
theorem get_account_bounds (av : AppendVec) (o : Nat)
    (hinv : av.current_len ≤ av.map.length) :
    (av.current_len < o + storedMetaSize → av.get_account o = none) ∧
    (∀ r nxt, av.get_account o = some (r, nxt) →
      o + storedMetaSize ≤ av.current_len ∧
      u64_align (o + storedMetaSize) + accountMetaSize ≤ av.current_len ∧
      u64_align (u64_align (o + storedMetaSize) + accountMetaSize) + hashSize ≤
        av.current_len ∧
      u64_align (u64_align (u64_align (o + storedMetaSize) + accountMetaSize) +
          hashSize) + r.meta.data_len ≤ av.current_len ∧
      r.meta.data_len = leVal ((av.map.drop (o + 8)).take 8) ∧
      r.data = (av.map.drop (u64_align (u64_align (u64_align
          (o + storedMetaSize) + accountMetaSize) + hashSize))).take
          r.meta.data_len ∧
      r.data.length = r.meta.data_len) := by
  constructor
  · intro hlt
    have h1 : av.get_slice o storedMetaSize = none :=
      (get_slice_eq_none_iff av o storedMetaSize).mpr (Or.inr hlt)
    unfold AppendVec.get_account
    rw [h1]
    rfl
  · intro r nxt h
    unfold AppendVec.get_account at h
    cases h1 : av.get_slice o storedMetaSize with
    | none => rw [h1] at h; exact absurd h (by simp)
    | some p1 =>
    obtain ⟨metaB, n1⟩ := p1
    rw [h1] at h
    simp only [Option.bind_eq_bind, Option.some_bind] at h
    obtain ⟨e1a, e1b, e1c, e1d⟩ := (get_slice_eq_some_iff av o storedMetaSize
      metaB n1).mp h1
    cases h2 : av.get_slice n1 accountMetaSize with
    | none => rw [h2] at h; exact absurd h (by simp)
    | some p2 =>
    obtain ⟨accB, n2⟩ := p2
    rw [h2] at h
    simp only [Option.bind_eq_bind, Option.some_bind] at h
    obtain ⟨e2a, e2b, e2c, e2d⟩ := (get_slice_eq_some_iff av n1 accountMetaSize
      accB n2).mp h2
    cases h3 : av.get_slice n2 hashSize with
    | none => rw [h3] at h; exact absurd h (by simp)
    | some p3 =>
    obtain ⟨hashB, n3⟩ := p3
    rw [h3] at h
    simp only [Option.bind_eq_bind, Option.some_bind] at h
    obtain ⟨e3a, e3b, e3c, e3d⟩ := (get_slice_eq_some_iff av n2 hashSize
      hashB n3).mp h3
    cases h4 : av.get_slice n3 (decodeStoredMeta metaB).data_len with
    | none => rw [h4] at h; exact absurd h (by simp)
    | some p4 =>
    obtain ⟨dataB, n4⟩ := p4
    rw [h4] at h
    simp only [Option.bind_eq_bind, Option.some_bind] at h
    obtain ⟨e4a, e4b, e4c, e4d⟩ := (get_slice_eq_some_iff av n3
      (decodeStoredMeta metaB).data_len dataB n4).mp h4
    injection h with h
    injection h with hr hn
    subst hr
    have hmeta : (decodeStoredMeta metaB).data_len =
        leVal ((av.map.drop (o + 8)).take 8) := by
      rw [e1c]
      show leVal ((((av.map.drop o).take storedMetaSize).drop 8).take 8) = _
      rw [show storedMetaSize = 48 from rfl, inner_field_eq]
    subst e1d
    subst e2d
    subst e3d
    dsimp only
    refine ⟨e1b, e2b, e3b, e4b, hmeta, e4c, ?_⟩
    rw [e4c]
    simp only [List.length_take, List.length_drop]
    omega

/-- Closed instance of `get_account_bounds`: reading at offset 0 of a
segment with declared length 10 yields `None` (48-byte header would overrun),
and on a valid 136-byte one-record segment the successful read's header is in
bounds. -/
theorem get_account_bounds_witness :
    (AppendVec.mk (List.replicate 10 0) 10 3 4).get_account 0 = none ∧
    0 + storedMetaSize ≤ (mkSegment 8 [zeroRecord 0] 0 0).current_len :=
  ⟨(get_account_bounds (AppendVec.mk (List.replicate 10 0) 10 3 4) 0
      (by decide)).1 (by decide),
   ((get_account_bounds (mkSegment 8 [zeroRecord 0] 0 0) 0 (by decide)).2
      { meta := { write_version_obsolete := 0, data_len := 0,
                  pubkey := List.replicate 32 0 },
        account_meta := { lamports := 0, rent_epoch := 0,
                          owner := List.replicate 32 0, executable := false },
        data := [], offset := 0, stored_size := 136,
        hash := List.replicate 32 0 }
      136 (by decide)).1⟩

/-- Alignment is the identity on multiples of 8. -/
theorem u64_align_of_mod {n : Nat} (h : n % 8 = 0) : u64_align n = n := by
  simp only [u64_align, ALIGN_BOUNDARY_OFFSET]
  omega

/-- Alignment distributes over adding a multiple of 8 on the left. -/
theorem u64_align_add {m : Nat} (n : Nat) (h : m % 8 = 0) :
    u64_align (m + n) = m + u64_align n := by
  simp only [u64_align, ALIGN_BOUNDARY_OFFSET]
  omega

/-- Alignment produces a multiple of 8 at least as large as its input. -/
theorem u64_align_bounds (n : Nat) :
    u64_align n % 8 = 0 ∧ n ≤ u64_align n ∧ u64_align n ≤ n + 7 := by
  simp only [u64_align, ALIGN_BOUNDARY_OFFSET]
  omega

/-- Length of the little-endian encoding. -/
theorem length_writeLE (n v : Nat) : (writeLE n v).length = n := by
  induction n generalizing v with
  | zero => rfl
  | succ n ih => simp [writeLE, ih]

/-- `fix32` always yields 32 bytes. -/
theorem length_fix32 (l : List Nat) : (fix32 l).length = 32 := by
  simp [fix32]

/-- The serialized `StoredMeta` region is 48 bytes. -/
theorem length_storedMetaBytes (r : AccountRecord) :
    (storedMetaBytes r).length = 48 := by
  simp [storedMetaBytes, length_writeLE, length_fix32]

/-- The serialized `AccountMeta` region is 56 bytes. -/
theorem length_accountMetaBytes (r : AccountRecord) :
    (accountMetaBytes r).length = 56 := by
  simp [accountMetaBytes, length_writeLE, length_fix32]

/-- The record body is the 136 fixed bytes plus the payload. -/
theorem length_recordBody (r : AccountRecord) :
    (recordBody r).length = 136 + r.data.length := by
  simp [recordBody, length_storedMetaBytes, length_accountMetaBytes,
    length_fix32]
  omega

/-- An 8-aligned record footprint is the 8-aligned body length. -/
theorem length_recordBytesAligned (r : AccountRecord) :
    (recordBytesAligned 8 r).length = u64_align (136 + r.data.length) := by
  simp only [recordBytesAligned, List.length_append, List.length_replicate,
    length_recordBody, alignTo, u64_align, ALIGN_BOUNDARY_OFFSET]
  omega

/-- Round-trip of the 8-byte little-endian encoding for `u64` values. -/
theorem leVal_writeLE8 (v : Nat) (h : v < USIZE_LIMIT) :
    leVal (writeLE 8 v) = v := by
  have e : writeLE 8 v = [v % 256, v / 256 % 256, v / 256 / 256 % 256,
      v / 256 / 256 / 256 % 256, v / 256 / 256 / 256 / 256 % 256,
      v / 256 / 256 / 256 / 256 / 256 % 256,
      v / 256 / 256 / 256 / 256 / 256 / 256 % 256,
      v / 256 / 256 / 256 / 256 / 256 / 256 / 256 % 256] := rfl
  rw [e]
  simp only [leVal]
  simp only [USIZE_LIMIT] at h
  omega

/-- Every serialized record occupies at least one byte, so a segment holds at
least as many bytes as records. -/
theorem length_le_segmentBytes (rs : List AccountRecord) :
    rs.length ≤ (segmentBytes 8 rs).length := by
  induction rs with
  | nil => simp [segmentBytes]
  | cons r rs ih =>
    simp only [segmentBytes, List.map_cons, List.flatten_cons,
      List.length_append, List.length_cons] at ih ⊢
    have h1 := length_recordBytesAligned r
    have h2 := (u64_align_bounds (136 + r.data.length)).2.1
    omega

/-- Decoding the serialized `StoredMeta` region recovers the payload
length. -/
theorem decode_storedMetaBytes_data_len (r : AccountRecord)
    (hd : r.data.length < USIZE_LIMIT) :
    (decodeStoredMeta (storedMetaBytes r)).data_len = r.data.length := by
  unfold decodeStoredMeta storedMetaBytes
  dsimp only
  rw [List.append_assoc, List.drop_left' (length_writeLE 8 r.write_version),
    List.take_left' (length_writeLE 8 r.data.length), leVal_writeLE8 _ hd]

/-- Reading a record at the start of its serialized footprint: `get_account`
succeeds, returns the record's payload view, and advances exactly past the
aligned footprint, whose size is the record's `stored_size`. -/
theorem get_account_step (P rest : List Nat) (r : AccountRecord)
    (slot id : Nat) (h8 : P.length % 8 = 0)
    (hd : r.data.length < USIZE_LIMIT)
    (hL : P.length + ((recordBytesAligned 8 r).length + rest.length) <
      USIZE_LIMIT) :
    ∃ rec : StoredAccountMeta,
      (AppendVec.mk (P ++ (recordBytesAligned 8 r ++ rest))
          (P.length + ((recordBytesAligned 8 r).length + rest.length))
          slot id).get_account P.length =
        some (rec, P.length + (recordBytesAligned 8 r).length) ∧
      rec.stored_size = (recordBytesAligned 8 r).length := by
  have hrec := length_recordBytesAligned r
  have hbody : 136 + r.data.length ≤ (recordBytesAligned 8 r).length := by
    rw [hrec]
    exact (u64_align_bounds (136 + r.data.length)).2.1
  have hmap : P ++ (recordBytesAligned 8 r ++ rest) =
      P ++ (storedMetaBytes r ++ (accountMetaBytes r ++ (fix32 r.hash ++
        (r.data ++ (List.replicate (alignTo 8 (recordBody r).length -
          (recordBody r).length) 0 ++ rest))))) := by
    simp [recordBytesAligned, recordBody, List.append_assoc]
  set pad : List Nat := List.replicate (alignTo 8 (recordBody r).length -
    (recordBody r).length) 0 with hpad
  set av : AppendVec := AppendVec.mk (P ++ (recordBytesAligned 8 r ++ rest))
    (P.length + ((recordBytesAligned 8 r).length + rest.length)) slot id
    with hav
  have hlen1 : (P ++ storedMetaBytes r).length = P.length + 48 := by
    simp [length_storedMetaBytes]
  have hlen2 : ((P ++ storedMetaBytes r) ++ accountMetaBytes r).length =
      P.length + 104 := by
    simp [length_storedMetaBytes, length_accountMetaBytes]
  have hlen3 : (((P ++ storedMetaBytes r) ++ accountMetaBytes r) ++
      fix32 r.hash).length = P.length + 136 := by
    simp [length_storedMetaBytes, length_accountMetaBytes, length_fix32]
  have hm1 : av.map = (P ++ storedMetaBytes r) ++ (accountMetaBytes r ++
      (fix32 r.hash ++ (r.data ++ (pad ++ rest)))) := by
    rw [hav]
    show P ++ (recordBytesAligned 8 r ++ rest) = _
    rw [hmap]
    simp [List.append_assoc]
  have hm2 : av.map = ((P ++ storedMetaBytes r) ++ accountMetaBytes r) ++
      (fix32 r.hash ++ (r.data ++ (pad ++ rest))) := by
    rw [hm1]
    simp [List.append_assoc]
  have hm3 : av.map = (((P ++ storedMetaBytes r) ++ accountMetaBytes r) ++
      fix32 r.hash) ++ (r.data ++ (pad ++ rest)) := by
    rw [hm1]
    simp [List.append_assoc]
  have hcur : av.current_len =
      P.length + ((recordBytesAligned 8 r).length + rest.length) := rfl
  have hmetaB : (av.map.drop P.length).take storedMetaSize =
      storedMetaBytes r := by
    rw [hav]
    show ((P ++ (recordBytesAligned 8 r ++ rest)).drop P.length).take
      storedMetaSize = storedMetaBytes r
    rw [hmap, List.drop_left P _]
    rw [show storedMetaSize = 48 from rfl]
    exact List.take_left' (length_storedMetaBytes r)
  have hs1 : av.get_slice P.length storedMetaSize =
      some (storedMetaBytes r, P.length + 48) := by
    rw [get_slice_eq_some_iff]
    refine ⟨?_, ?_, hmetaB.symm, ?_⟩
    · rw [show storedMetaSize = 48 from rfl]
      omega
    · rw [hcur, show storedMetaSize = 48 from rfl]
      omega
    · rw [show storedMetaSize = 48 from rfl,
        u64_align_add 48 h8, u64_align_of_mod (by omega)]
  have hs2 : av.get_slice (P.length + 48) accountMetaSize =
      some (accountMetaBytes r, P.length + 104) := by
    rw [get_slice_eq_some_iff]
    refine ⟨?_, ?_, ?_, ?_⟩
    · rw [show accountMetaSize = 56 from rfl]
      omega
    · rw [hcur, show accountMetaSize = 56 from rfl]
      omega
    · rw [hm1, List.drop_left' hlen1, show accountMetaSize = 56 from rfl,
        List.take_left' (length_accountMetaBytes r)]
    · rw [show accountMetaSize = 56 from rfl,
        show P.length + 48 + 56 = P.length + 104 by omega,
        u64_align_add 104 h8, u64_align_of_mod (by omega)]
  have hs3 : av.get_slice (P.length + 104) hashSize =
      some (fix32 r.hash, P.length + 136) := by
    rw [get_slice_eq_some_iff]
    refine ⟨?_, ?_, ?_, ?_⟩
    · rw [show hashSize = 32 from rfl]
      omega
    · rw [hcur, show hashSize = 32 from rfl]
      omega
    · rw [hm2, List.drop_left' hlen2, show hashSize = 32 from rfl,
        List.take_left' (length_fix32 r.hash)]
    · rw [show hashSize = 32 from rfl,
        show P.length + 104 + 32 = P.length + 136 by omega,
        u64_align_add 136 h8, u64_align_of_mod (by omega)]
  have hs4 : av.get_slice (P.length + 136)
      (decodeStoredMeta (storedMetaBytes r)).data_len =
      some (r.data, P.length + (recordBytesAligned 8 r).length) := by
    rw [get_slice_eq_some_iff, decode_storedMetaBytes_data_len r hd]
    refine ⟨?_, ?_, ?_, ?_⟩
    · omega
    · rw [hcur]
      omega
    · rw [hm3, List.drop_left' hlen3, List.take_left' rfl]
    · rw [show P.length + 136 + r.data.length =
          P.length + (136 + r.data.length) by omega,
        u64_align_add (136 + r.data.length) h8, hrec]
  unfold AppendVec.get_account
  rw [hs1]
  simp only [Option.bind_eq_bind, Option.some_bind]
  rw [hs2]
  simp only [Option.bind_eq_bind, Option.some_bind]
  rw [hs3]
  simp only [Option.bind_eq_bind, Option.some_bind]
  rw [hs4]
  simp only [Option.bind_eq_bind, Option.some_bind]
  refine ⟨_, rfl, ?_⟩
  dsimp only
  omega

/-- Iterating the serialized records that follow an 8-aligned prefix sums the
yielded `stored_size`s to exactly the serialized tail's byte count. -/
theorem iterFrom_sum (rs : List AccountRecord) :
    ∀ (P : List Nat) (fuel slot id : Nat), P.length % 8 = 0 →
      (∀ r ∈ rs, r.data.length < USIZE_LIMIT) →
      P.length + (segmentBytes 8 rs).length < USIZE_LIMIT →
      rs.length < fuel →
      ((iterFrom (AppendVec.mk (P ++ segmentBytes 8 rs)
          (P.length + (segmentBytes 8 rs).length) slot id) fuel
          P.length).map (fun p => p.1.stored_size)).sum =
        (segmentBytes 8 rs).length := by
  induction rs with
  | nil =>
    intro P fuel slot id h8 hd hL hf
    obtain ⟨f, rfl⟩ : ∃ f, fuel = f + 1 := ⟨fuel - 1, by omega⟩
    have hnone : (AppendVec.mk (P ++ segmentBytes 8 [])
        (P.length + (segmentBytes 8 []).length) slot id).get_account
        P.length = none := by
      unfold AppendVec.get_account
      rw [(get_slice_eq_none_iff _ _ _).mpr (Or.inr (by
        show P.length + (segmentBytes 8 []).length < P.length + storedMetaSize
        simp [segmentBytes, storedMetaSize]))]
      rfl
    have hempty : iterFrom (AppendVec.mk (P ++ segmentBytes 8 [])
        (P.length + (segmentBytes 8 []).length) slot id) (f + 1)
        P.length = [] := by
      show (match (AppendVec.mk (P ++ segmentBytes 8 [])
        (P.length + (segmentBytes 8 []).length) slot id).get_account
        P.length with
        | none => []
        | some (r, next) => (r, next) :: iterFrom _ f next) = []
      rw [hnone]
    rw [hempty]
    simp [segmentBytes]
  | cons r rs ih =>
    intro P fuel slot id h8 hd hL hf
    obtain ⟨f, rfl⟩ : ∃ f, fuel = f + 1 := ⟨fuel - 1, by omega⟩
    have hseg : segmentBytes 8 (r :: rs) =
        recordBytesAligned 8 r ++ segmentBytes 8 rs := by
      simp [segmentBytes]
    have hseglen : (segmentBytes 8 (r :: rs)).length =
        (recordBytesAligned 8 r).length + (segmentBytes 8 rs).length := by
      rw [hseg, List.length_append]
    have hL2 : P.length + ((recordBytesAligned 8 r).length +
        (segmentBytes 8 rs).length) < USIZE_LIMIT := by
      rw [← hseglen]
      exact hL
    obtain ⟨rec, hacc, hstored⟩ := get_account_step P (segmentBytes 8 rs) r
      slot id h8 (hd r (List.mem_cons_self r rs)) hL2
    have havEq : AppendVec.mk (P ++ segmentBytes 8 (r :: rs))
        (P.length + (segmentBytes 8 (r :: rs)).length) slot id =
        AppendVec.mk (P ++ (recordBytesAligned 8 r ++ segmentBytes 8 rs))
          (P.length + ((recordBytesAligned 8 r).length +
            (segmentBytes 8 rs).length)) slot id := by
      rw [hseg, List.length_append]
    rw [havEq]
    set av2 : AppendVec :=
      AppendVec.mk (P ++ (recordBytesAligned 8 r ++ segmentBytes 8 rs))
        (P.length + ((recordBytesAligned 8 r).length +
          (segmentBytes 8 rs).length)) slot id with hav2
    have hunfold : iterFrom av2 (f + 1) P.length =
        (rec, P.length + (recordBytesAligned 8 r).length) ::
          iterFrom av2 f (P.length + (recordBytesAligned 8 r).length) := by
      show (match av2.get_account P.length with
        | none => []
        | some (r, next) => (r, next) :: iterFrom av2 f next) = _
      rw [hacc]
    rw [hunfold]
    simp only [List.map_cons, List.sum_cons, hstored]
    have hoff : P.length + (recordBytesAligned 8 r).length =
        (P ++ recordBytesAligned 8 r).length := (List.length_append _ _).symm
    have hav3 : av2 = AppendVec.mk
        ((P ++ recordBytesAligned 8 r) ++ segmentBytes 8 rs)
        ((P ++ recordBytesAligned 8 r).length +
          (segmentBytes 8 rs).length) slot id := by
      rw [hav2]
      simp [List.append_assoc]
      omega
    have h8b : (P ++ recordBytesAligned 8 r).length % 8 = 0 := by
      rw [List.length_append, length_recordBytesAligned]
      have := (u64_align_bounds (136 + r.data.length)).1
      omega
    have hLb : (P ++ recordBytesAligned 8 r).length +
        (segmentBytes 8 rs).length < USIZE_LIMIT := by
      rw [List.length_append]
      omega
    have hdb : ∀ x ∈ rs, x.data.length < USIZE_LIMIT :=
      fun x hx => hd x (List.mem_cons_of_mem r hx)
    have hfb : rs.length < f := by
      simp only [List.length_cons] at hf
      omega
    rw [hoff, hav3, ih (P ++ recordBytesAligned 8 r) f slot id h8b hdb hLb hfb,
      hseglen]

/-- On success, `get_account` records the offset it was called at: the
returned `stored_size` is `next_offset - offset` and the next offset is
8-byte aligned. -/
theorem get_account_inv (av : AppendVec) (o : Nat) (r : StoredAccountMeta)
    (nxt : Nat) (h : av.get_account o = some (r, nxt)) :
    r.offset = o ∧ r.stored_size = nxt - o ∧ nxt % 8 = 0 := by
  unfold AppendVec.get_account at h
  cases h1 : av.get_slice o storedMetaSize with
  | none => rw [h1] at h; exact absurd h (by simp)
  | some p1 =>
  obtain ⟨metaB, n1⟩ := p1
  rw [h1] at h
  simp only [Option.bind_eq_bind, Option.some_bind] at h
  cases h2 : av.get_slice n1 accountMetaSize with
  | none => rw [h2] at h; exact absurd h (by simp)
  | some p2 =>
  obtain ⟨accB, n2⟩ := p2
  rw [h2] at h
  simp only [Option.bind_eq_bind, Option.some_bind] at h
  cases h3 : av.get_slice n2 hashSize with
  | none => rw [h3] at h; exact absurd h (by simp)
  | some p3 =>
  obtain ⟨hashB, n3⟩ := p3
  rw [h3] at h
  simp only [Option.bind_eq_bind, Option.some_bind] at h
  cases h4 : av.get_slice n3 (decodeStoredMeta metaB).data_len with
  | none => rw [h4] at h; exact absurd h (by simp)
  | some p4 =>
  obtain ⟨dataB, n4⟩ := p4
  rw [h4] at h
  simp only [Option.bind_eq_bind, Option.some_bind] at h
  obtain ⟨-, -, -, e4d⟩ := (get_slice_eq_some_iff av n3
    (decodeStoredMeta metaB).data_len dataB n4).mp h4
  injection h with h
  injection h with hr hn
  subst hr
  subst hn
  refine ⟨rfl, rfl, ?_⟩
  rw [e4d]
  exact (u64_align_bounds _).1

/-- Every element yielded by the fuel-indexed iterator comes from a
successful `get_account` at some offset. -/
theorem mem_iterFrom (av : AppendVec) :
    ∀ (fuel o : Nat) (p : StoredAccountMeta × Nat),
      p ∈ iterFrom av fuel o → ∃ u, av.get_account u = some p := by
  intro fuel
  induction fuel with
  | zero => intro o p h; simp [iterFrom] at h
  | succ f ih =>
    intro o p h
    cases hg : av.get_account o with
    | none =>
      have hempty : iterFrom av (f + 1) o = [] := by
        show (match av.get_account o with
          | none => []
          | some (r, next) => (r, next) :: iterFrom av f next) = []
        rw [hg]
      rw [hempty] at h
      simp at h
    | some q =>
      obtain ⟨r, n⟩ := q
      have hcons : iterFrom av (f + 1) o = (r, n) :: iterFrom av f n := by
        show (match av.get_account o with
          | none => []
          | some (r, next) => (r, next) :: iterFrom av f next) = _
        rw [hg]
      rw [hcons] at h
      rcases List.mem_cons.mp h with rfl | h
      · exact ⟨o, hg⟩
      · exact ih n p h

/-- C5 amended: for every valid segment — records serialized per the §3
layout with each record's footprint rounded up to the next multiple of 8
(`u64_align` aligns to `size_of::<u64>()` = 8, not to 64 bytes) — iterating
records from offset 0 until the first `None` and summing the yielded
`stored_size`s gives exactly the declared length, with no overrun; each
yielded record's `stored_size` is its `next_offset` minus its own offset,
and `next_offset` (the following record's 8-byte-aligned offset) is a
multiple of 8. -/
theorem append_vec_iter_sum_eq_len (rs : List AccountRecord) (slot id : Nat)
    (hd : ∀ r ∈ rs, r.data.length < USIZE_LIMIT)
    (hL : (segmentBytes 8 rs).length < USIZE_LIMIT) :
    (((append_vec_iter (mkSegment 8 rs slot id)).map
        (fun p => p.1.stored_size)).sum =
      (mkSegment 8 rs slot id).current_len) ∧
    (∀ p ∈ append_vec_iter (mkSegment 8 rs slot id),
      p.1.stored_size = p.2 - p.1.offset ∧ p.2 % 8 = 0) := by
  constructor
  · have hmk : mkSegment 8 rs slot id =
        AppendVec.mk (([] : List Nat) ++ segmentBytes 8 rs)
          ((([] : List Nat)).length + (segmentBytes 8 rs).length) slot id := by
      simp [mkSegment]
    have hfuel : rs.length < (mkSegment 8 rs slot id).current_len + 1 := by
      have := length_le_segmentBytes rs
      show rs.length < (segmentBytes 8 rs).length + 1
      omega
    unfold append_vec_iter
    rw [show (mkSegment 8 rs slot id).current_len =
      (segmentBytes 8 rs).length from rfl]
    rw [hmk]
    exact iterFrom_sum rs [] ((segmentBytes 8 rs).length + 1) slot id
      (by simp) hd (by simpa using hL) (by simpa using hfuel)
  · intro p hp
    obtain ⟨u, hu⟩ := mem_iterFrom (mkSegment 8 rs slot id)
      ((mkSegment 8 rs slot id).current_len + 1) 0 p hp
    obtain ⟨r, nxt⟩ := p
    obtain ⟨ho, hs, hm⟩ := get_account_inv (mkSegment 8 rs slot id) u r nxt hu
    exact ⟨by rw [hs, ho], hm⟩

/-- Closed instance of `append_vec_iter_sum_eq_len`: a two-record 8-aligned
segment (payloads of 3 and 0 bytes, total length 280) sums its
`stored_size`s back to 280. -/
theorem append_vec_iter_sum_eq_len_witness :
    ((append_vec_iter (mkSegment 8 [c5Record, zeroRecord 2] 5 7)).map
        (fun p => p.1.stored_size)).sum =
      (mkSegment 8 [c5Record, zeroRecord 2] 5 7).current_len :=
  (append_vec_iter_sum_eq_len [c5Record, zeroRecord 2] 5 7 (by decide)
    (by decide)).1

/-- C5 counterexample: serializing one record with a 3-byte payload per the
spec's own §3 layout (footprint rounded up to the next 64-byte boundary)
yields a valid segment of declared length 192 on which the code's iteration
stops after 144 bytes: the `stored_size`s sum to 144, not 192, and the
yielded `next_offset` 144 is not 64-byte aligned — `u64_align!` rounds to 8
bytes, not 64. -/
theorem append_vec_iter_64_counterexample :
    (mkSegment 64 [c5Record] 5 7).current_len = 192 ∧
    ((append_vec_iter (mkSegment 64 [c5Record] 5 7)).map
        (fun p => p.1.stored_size)).sum = 144 ∧
    (append_vec_iter (mkSegment 64 [c5Record] 5 7)).map (fun p => p.2) =
      [144] ∧
    144 % 64 ≠ 0 := by
  refine ⟨?_, ?_, ?_, ?_⟩ <;> decide

end Theorems

end SnapshotEtl
